import Mathlib

/-!
Verification of the runtime core of the tile-world prototype:
`src/core/loop.py` (Loop, LoopManager), `src/core/common.py`
(Size, Grid, Grid.Iterator, CoordinateSet) and `src/core/event.py`
(EventListener, EventManager).

Python floats are modelled as exact rationals (ℚ), Python ints as ℤ.
Callbacks are modelled by their observable effects: every callback
invocation is recorded as an event `(loop id, index)`, and the closed set
of callback behaviours appearing in the claims (plain loops, `once`
wrappers that self-remove, callbacks that call `manager.remove`) is
reified as a `LKind` tag interpreted by the manager-update function.
-/

namespace Capstone

/-- The behaviour of a loop's callback, as registered in the source:
`plain` is `LoopManager.loop` (callback only records its invocation);
`onceK` is the wrapper built by `LoopManager.once` (after invoking the
callback with `index`, it removes the loop from the manager's list when
`index == count_per_period - 1`); `removeTarget t` is a callback that
additionally calls `manager.remove` on the loop with id `t` (the
mutation-during-iteration scenario of the spec). -/
inductive LKind where
  | plain : LKind
  | onceK : LKind
  | removeTarget : ℕ → LKind
deriving DecidableEq

/-- State of one `Loop` object (`Loop.__init__` in src/core/loop.py),
plus an `id` standing for Python object identity and the `kind` tag
describing its callback. -/
structure MLoop where
  id : ℕ
  fps : ℚ
  count_per_period : ℤ
  each_count_time : ℚ
  elapsed_time : ℚ
  current_count : ℤ
  paused : Bool
  kind : LKind
deriving DecidableEq

/-- `Loop.__init__(fps, count_per_period, callback)`:
`each_count_time = 1000 / fps`, `elapsed_time = 0`, `current_count = -1`,
`paused = False`. -/
def mkLoop (n : ℕ) (fps : ℚ) (cpp : ℤ) (k : LKind) : MLoop :=
  { id := n, fps := fps, count_per_period := cpp,
    each_count_time := 1000 / fps, elapsed_time := 0,
    current_count := -1, paused := false, kind := k }

/-- `Loop.update(dt)`: add `dt` to `elapsed_time`; if
`elapsed_time > (current_count + 1) * each_count_time` then increment
`current_count`, run `reset()` (`elapsed_time = 0, current_count = 0`)
when `current_count >= count_per_period`, and invoke the callback with
the (possibly reset) `current_count`.  The returned `Option ℤ` is the
index passed to the callback (`none` when the callback is not invoked);
by construction at most one callback invocation happens per update. -/
def loopUpdate (l : MLoop) (dt : ℚ) : MLoop × Option ℤ :=
  let l1 := { l with elapsed_time := l.elapsed_time + dt }
  if l1.elapsed_time > ((l1.current_count : ℚ) + 1) * l1.each_count_time then
    let l2 := { l1 with current_count := l1.current_count + 1 }
    let l3 := if l2.current_count ≥ l2.count_per_period
      then { l2 with elapsed_time := 0, current_count := 0 }
      else l2
    (l3, some l3.current_count)
  else
    (l1, none)

/-- `list.remove(x)` where elements are compared by object identity
(our `id` field): removes the first occurrence, no-op when absent.
`LoopManager.remove` guards with a membership test and is therefore
exactly this function as well. -/
def removeById (n : ℕ) : List MLoop → List MLoop
  | [] => []
  | l :: ls => if l.id = n then ls else l :: removeById n ls

/-- The list mutation performed by a fired callback, per its `LKind`:
`plain` leaves the list alone; `onceK` removes the loop itself when the
fired index equals `count_per_period - 1`; `removeTarget t` performs
`manager.remove` on loop `t`. -/
def applyEffect (k : LKind) (n : ℕ) (cpp : ℤ) (idx : ℤ) (ls : List MLoop) :
    List MLoop :=
  match k with
  | .plain => ls
  | .onceK => if idx = cpp - 1 then removeById n ls else ls
  | .removeTarget t => removeById t ls

/-- CPython's list-iterator semantics for `for loop in self._loop_list`:
the iterator keeps a bare index `i` into the live list, yields
`list[i]` while `i < len(list)` and increments `i`, oblivious to
removals performed by callbacks in between.  The first argument is
fuel; since `i` grows by one per step and the list never grows, fuel
`ls.length` always suffices, so this is total and faithful. -/
def managerGoF (dt : ℚ) :
    ℕ → ℕ → List MLoop → List (ℕ × ℤ) → List MLoop × List (ℕ × ℤ)
  | 0, _, ls, evs => (ls, evs)
  | fuel + 1, i, ls, evs =>
    if h : i < ls.length then
      let l := ls.get ⟨i, h⟩
      if l.paused then
        managerGoF dt fuel (i + 1) ls evs
      else
        let r := loopUpdate l dt
        let ls1 := ls.set i r.1
        match r.2 with
        | none => managerGoF dt fuel (i + 1) ls1 evs
        | some idx =>
          managerGoF dt fuel (i + 1)
            (applyEffect l.kind l.id l.count_per_period idx ls1)
            (evs ++ [(l.id, idx)])
    else (ls, evs)

/-- `LoopManager.update(dt)`: iterate the live loop list from index 0,
updating every non-paused loop; returns the final list together with the
sequence of callback invocations `(loop id, index)` in order. -/
def managerUpdate (dt : ℚ) (ls : List MLoop) :
    List MLoop × List (ℕ × ℤ) :=
  managerGoF dt ls.length 0 ls []

/-- Repeated `LoopManager.update` over a list of delta times; returns the
final loop list and the concatenated event sequence. -/
def managerRun (dts : List ℚ) (ls : List MLoop) :
    List MLoop × List (ℕ × ℤ) :=
  match dts with
  | [] => (ls, [])
  | dt :: rest =>
    let r := managerUpdate dt ls
    let r2 := managerRun rest r.1
    (r2.1, r.2 ++ r2.2)

/-- Like `managerRun` but keeping the events of each update call
separate: entry `j` is the list of callback invocations of the
`(j+1)`-st `update` call. -/
def managerTrace (dts : List ℚ) (ls : List MLoop) :
    List (List (ℕ × ℤ)) :=
  match dts with
  | [] => []
  | dt :: rest =>
    (managerUpdate dt ls).2 :: managerTrace rest (managerUpdate dt ls).1

/-- The loop object built by `LoopManager.once(fps, cpp, cb)` after it
has fired the indices `0 .. c` and accumulated `e` milliseconds:
identical to `mkLoop` except for `current_count` and `elapsed_time`. -/
def onceState (n : ℕ) (fps : ℚ) (cpp : ℤ) (c : ℤ) (e : ℚ) : MLoop :=
  { mkLoop n fps cpp .onceK with current_count := c, elapsed_time := e }

/-- `LoopManager.delay(delay_ms, cb)` registers
`once(1000 / delay_ms, 2, delay_func)` where `delay_func` invokes the
user callback exactly when the fired index is 1; so the user callback's
invocations are the `(id, 1)` events of this loop. -/
def delayLoop (n : ℕ) (delay_ms : ℚ) : MLoop :=
  mkLoop n (1000 / delay_ms) 2 .onceK

/-- `Size` from src/core/common.py: an immutable pair of integers. -/
structure Size where
  width : ℤ
  height : ℤ
deriving DecidableEq

/-- A `Grid` object: its `Size` and the dense cell list `self._cells`
(row-major).  `Grid.__init__` allocates `size.width * size.height`
cells, which the invariant `(cells.length : ℤ) = width * height`
captures for non-negative sizes. -/
structure Grid (α : Type) where
  size : Size
  cells : List α

/-- CPython semantics of `lst[i]` for `i : int`: an index in
`[0, len)` reads directly, an index in `[-len, 0)` silently wraps to
`i + len`, and anything else raises `IndexError` (modelled as `none`). -/
def pyGet {α : Type} (l : List α) (i : ℤ) : Option α :=
  if 0 ≤ i then l.get? i.toNat
  else if -(l.length : ℤ) ≤ i then l.get? (i + l.length).toNat
  else none

/-- CPython semantics of `lst[i] = v`: same index resolution as reads;
`none` models the raised `IndexError`. -/
def pySet {α : Type} (l : List α) (i : ℤ) (v : α) : Option (List α) :=
  if 0 ≤ i ∧ i < (l.length : ℤ) then some (l.set i.toNat v)
  else if -(l.length : ℤ) ≤ i ∧ i < 0 then some (l.set (i + l.length).toNat v)
  else none

namespace Grid

/-- `Grid.get_index(coordinate)`: `row * width + col` where the
coordinate is `(col, row)`. -/
def get_index {α : Type} (g : Grid α) (coordinate : ℤ × ℤ) : ℤ :=
  coordinate.2 * g.size.width + coordinate.1

/-- `Grid.get(coordinate)`: `self._cells[self.get_index(coordinate)]`. -/
def get {α : Type} (g : Grid α) (coordinate : ℤ × ℤ) : Option α :=
  pyGet g.cells (g.get_index coordinate)

/-- `Grid.__getitem__(index)`: `self._cells[index]`. -/
def getLinear {α : Type} (g : Grid α) (index : ℤ) : Option α :=
  pyGet g.cells index

/-- `Grid.set(coordinate, cell)`. -/
def set {α : Type} (g : Grid α) (coordinate : ℤ × ℤ) (cell : α) :
    Option (Grid α) :=
  (pySet g.cells (g.get_index coordinate) cell).map (fun cs => ⟨g.size, cs⟩)

/-- `Grid.__setitem__(index, cell)`. -/
def setLinear {α : Type} (g : Grid α) (index : ℤ) (cell : α) :
    Option (Grid α) :=
  (pySet g.cells index cell).map (fun cs => ⟨g.size, cs⟩)

end Grid

/-- State of a `Grid.Iterator` object: the bounds taken from
`row_range` and `col_range` plus the mutable cursor. (The grid itself
is irrelevant to the traversal order, so it is not stored; the cells
yielded are `grid.get` of the coordinates produced here.) -/
structure ItState where
  row_start : ℤ
  row_end : ℤ
  col_start : ℤ
  col_end : ℤ
  current_row : ℤ
  current_col : ℤ
deriving DecidableEq

/-- `Grid.get_iterator(row_range, col_range)` /
`Grid.Iterator.__init__`: the cursor starts at
`(row_start, col_start)`. -/
def mkIterator (row_range col_range : ℤ × ℤ) : ItState :=
  { row_start := row_range.1, row_end := row_range.2,
    col_start := col_range.1, col_end := col_range.2,
    current_row := row_range.1, current_col := col_range.1 }

/-- One `Grid.Iterator.__next__` call: `StopIteration` (`none`) when
`current_row >= row_end`; otherwise yield the cell coordinate
`(current_col, current_row)`, advance the column, and wrap to
`(col_start, current_row + 1)` when the incremented column reaches
`col_end`. -/
def iterNext (s : ItState) : Option ((ℤ × ℤ) × ItState) :=
  if s.current_row ≥ s.row_end then none
  else
    let cell := (s.current_col, s.current_row)
    if s.current_col + 1 ≥ s.col_end then
      some (cell, { s with current_col := s.col_start,
                           current_row := s.current_row + 1 })
    else
      some (cell, { s with current_col := s.current_col + 1 })

/-- The full sequence of coordinates yielded by exhausting the
iterator (the source's `for` loop over it); same case structure as
`iterNext`. -/
def iterRun (s : ItState) : List (ℤ × ℤ) :=
  if h : s.current_row ≥ s.row_end then []
  else if s.current_col + 1 ≥ s.col_end then
    (s.current_col, s.current_row) ::
      iterRun { s with current_col := s.col_start,
                       current_row := s.current_row + 1 }
  else
    (s.current_col, s.current_row) ::
      iterRun { s with current_col := s.current_col + 1 }
termination_by ((s.row_end - s.current_row).toNat,
  (s.col_end - s.current_col).toNat)
decreasing_by
  · apply Prod.Lex.left
    simp only [not_le] at h
    omega
  · apply Prod.Lex.right
    rename_i h2
    simp only [not_le] at h h2
    omega

/-- Python's `range(a, b)` as a list of integers. -/
def intRangeAux : ℕ → ℤ → List ℤ
  | 0, _ => []
  | n + 1, a => a :: intRangeAux n (a + 1)

/-- Python's `range(a, b)`: the integers `a, a+1, …, b-1` (empty when
`b ≤ a`). -/
def intRange (a b : ℤ) : List ℤ :=
  intRangeAux (b - a).toNat a

/-- A `CoordinateSet`'s underlying Python `set` of `(col, row)` pairs,
modelled as a `Finset`. -/
abbrev CoordinateSet := Finset (ℤ × ℤ)

/-- `CoordinateSet.add(coordinate)`: idempotent insertion. -/
def csAdd (s : CoordinateSet) (c : ℤ × ℤ) : CoordinateSet :=
  insert c s

/-- `CoordinateSet.has(coordinate)`: membership test. -/
def csHas (s : CoordinateSet) (c : ℤ × ℤ) : Bool :=
  c ∈ s

/-- `CoordinateSet.remove(coordinate)`: Python's `set.remove`, which
raises `KeyError` (`none`) when the coordinate is absent. -/
def csRemove (s : CoordinateSet) (c : ℤ × ℤ) : Option CoordinateSet :=
  if c ∈ s then some (s.erase c) else none

/-- A pygame `Rect` as used by `CoordinateSet.from_rect`: position and
extent, all integers. -/
structure Rect where
  x : ℤ
  y : ℤ
  width : ℤ
  height : ℤ

/-- `CoordinateSet.from_rect(rect)`: add `(col, row)` for every `row`
in `range(rect.y, rect.y + rect.height)` and `col` in
`range(rect.x, rect.x + rect.width)`. -/
def fromRect (r : Rect) : CoordinateSet :=
  (intRange r.y (r.y + r.height)).foldl
    (fun s row =>
      (intRange r.x (r.x + r.width)).foldl
        (fun s2 col => csAdd s2 (col, row)) s)
    ∅

/-- `EventManager._event_listener_map`, a Python dict from event type
to the ordered list of listeners; dict insertion order is the list
order here and listeners are identified by opaque ids.  `dictGet`
models `dict.get` (`None` when the key is absent). -/
def dictGet (m : List (ℤ × List ℕ)) (t : ℤ) : Option (List ℕ) :=
  match m with
  | [] => none
  | (k, v) :: rest => if k = t then some v else dictGet rest t

/-- In-place `map[event_type].append(listener)` on an existing key. -/
def appendListener (m : List (ℤ × List ℕ)) (t : ℤ) (l : ℕ) :
    List (ℤ × List ℕ) :=
  match m with
  | [] => []
  | (k, v) :: rest =>
    if k = t then (k, v ++ [l]) :: rest else (k, v) :: appendListener rest t l

/-- `EventManager.on(event_type, callback)`: create the key with an
empty list when absent, then append an `EventListener` holding the
callback. -/
def emOn (m : List (ℤ × List ℕ)) (t : ℤ) (l : ℕ) : List (ℤ × List ℕ) :=
  match dictGet m t with
  | none => appendListener (m ++ [(t, [])]) t l
  | some _ => appendListener m t l

/-- `EventManager.trigger(event, context)` with `γ` the opaque context
type: look up the listener list of the event type and invoke each in
order with the context; the result is the sequence of invocations
`(listener id, context)`, empty (a silent no-op) when no listener is
registered. -/
def emTrigger {γ : Type} (m : List (ℤ × List ℕ)) (t : ℤ) (ctx : γ) :
    List (ℕ × γ) :=
  match dictGet m t with
  | none => []
  | some ll => ll.map (fun l => (l, ctx))

end Capstone

namespace Capstone

/-- The claim C3 scenario loop: `Loop(fps=1000, count_per_period=3, cb)`. -/
def c3Loop : MLoop := mkLoop 0 1000 3 .plain

/-- C3: for `Loop(fps=1000, count_per_period=3)` (so `each_count_time`
is 1 ms) in its initial state, a single `update(1.5)` invokes the
callback exactly once, with index 0 — even though 1.5 ms crosses the
0 ms and 1 ms boundaries — and a further `update(1.5)` invokes it
exactly once more, with index 1; the embedding returns at most one
fired index per update, mirroring the single boundary check of
`Loop.update`. -/
theorem C3_single_boundary_per_update :
    (loopUpdate c3Loop (3 / 2)).2 = some 0 ∧
    (loopUpdate (loopUpdate c3Loop (3 / 2)).1 (3 / 2)).2 = some 1 := by
  norm_num [loopUpdate, c3Loop, mkLoop]

/-- C4: on an `update(dt)` step whose boundary check fires and whose
incremented `current_count` reaches `count_per_period`, `reset()` runs
first — zeroing `elapsed_time` (discarding the overshoot) and
`current_count` — and only then is the callback invoked, so the
callback receives index 0. -/
theorem C4_reset_before_callback (l : MLoop) (dt : ℚ)
    (hfire : l.elapsed_time + dt > ((l.current_count : ℚ) + 1) * l.each_count_time)
    (hwrap : l.count_per_period ≤ l.current_count + 1) :
    loopUpdate l dt =
      ({ l with elapsed_time := 0, current_count := 0 }, some 0) := by
  simp only [loopUpdate, ge_iff_le]
  rw [if_pos hfire, if_pos hwrap]

/-- Witness for C4 at a concrete input: `fps=1000`, `count_per_period=2`,
state `elapsed_time=1.5`, `current_count=1`, `dt=1`. -/
theorem C4_reset_before_callback_witness :
    loopUpdate
        { mkLoop 0 1000 2 .plain with elapsed_time := 3 / 2, current_count := 1 }
        1 =
      ({ mkLoop 0 1000 2 .plain with elapsed_time := 0, current_count := 0 },
        some 0) := by
  have h := C4_reset_before_callback
    { mkLoop 0 1000 2 .plain with elapsed_time := 3 / 2, current_count := 1 }
    1 (by norm_num [mkLoop]) (by norm_num [mkLoop])
  exact h

lemma get?_pyGet {α : Type} (l : List α) (i : ℤ) (hi : 0 ≤ i) :
    pyGet l i = l.get? i.toNat := by
  simp [pyGet, hi]

lemma pyGet_none_iff {α : Type} (l : List α) (i : ℤ) :
    pyGet l i = none ↔ (i < -(l.length : ℤ) ∨ (l.length : ℤ) ≤ i) := by
  unfold pyGet
  split_ifs with h1 h2
  · rw [List.get?_eq_none]
    omega
  · rw [List.get?_eq_none]
    omega
  · simp only [true_iff]
    omega

lemma pySet_none_iff {α : Type} (l : List α) (i : ℤ) (v : α) :
    pySet l i v = none ↔ (i < -(l.length : ℤ) ∨ (l.length : ℤ) ≤ i) := by
  unfold pySet
  split_ifs with h1 h2
  · exact iff_of_false (by simp) (by omega)
  · exact iff_of_false (by simp) (by omega)
  · exact iff_of_true rfl (by omega)

/-- C2 fails as stated: in the 2×2 grid with cells `[10,11,12,13]`, the
coordinate `(-1, 0)` resolves to linear index `-1`, which lies outside
`[0, width*height)`, yet `Grid.get` does not fail: Python's negative
indexing silently wraps it to the last cell and returns `13`. -/
theorem C2_counterexample :
    Grid.get_index (⟨⟨2, 2⟩, [10, 11, 12, 13]⟩ : Grid ℕ) (-1, 0) = -1 ∧
    ¬ (0 ≤ (-1 : ℤ) ∧ (-1 : ℤ) < 2 * 2) ∧
    Grid.get (⟨⟨2, 2⟩, [10, 11, 12, 13]⟩ : Grid ℕ) (-1, 0) = some 13 := by
  refine ⟨by decide, by decide, ?_⟩
  decide

/-- C2 amended: for a grid whose cell list has the invariant length
`width * height`, a linear access — read (`getLinear`) or write
(`setLinear`, with any value `v`) — fails (raises `IndexError`)
exactly when the index lies outside `[-(width*height), width*height)`;
accesses with index in `[0, width*height)` never fail; but an index in
`[-(width*height), 0)` does not fail either — it silently wraps, the
read returning and the write storing at the same cell as
`index + width*height`. -/
theorem C2_amended_bounds {α : Type} (g : Grid α) (idx : ℤ) (v : α)
    (hlen : (g.cells.length : ℤ) = g.size.width * g.size.height) :
    (g.getLinear idx = none ↔
      (idx < -(g.size.width * g.size.height) ∨
        g.size.width * g.size.height ≤ idx)) ∧
    (0 ≤ idx → idx < g.size.width * g.size.height →
      ∃ c, g.getLinear idx = some c) ∧
    (idx < 0 → -(g.size.width * g.size.height) ≤ idx →
      g.getLinear idx = g.getLinear (idx + g.size.width * g.size.height)) ∧
    (g.setLinear idx v = none ↔
      (idx < -(g.size.width * g.size.height) ∨
        g.size.width * g.size.height ≤ idx)) ∧
    (0 ≤ idx → idx < g.size.width * g.size.height →
      ∃ g2, g.setLinear idx v = some g2) ∧
    (idx < 0 → -(g.size.width * g.size.height) ≤ idx →
      g.setLinear idx v =
        g.setLinear (idx + g.size.width * g.size.height) v) := by
  refine ⟨?_, ?_, ?_, ?_, ?_, ?_⟩
  · rw [Grid.getLinear, pyGet_none_iff, hlen]
  · intro h1 h2
    have hne : ¬ (g.getLinear idx = none) := by
      rw [Grid.getLinear, pyGet_none_iff]
      omega
    exact Option.ne_none_iff_exists'.mp hne
  · intro h1 h2
    rw [Grid.getLinear, Grid.getLinear]
    unfold pyGet
    have hx : ¬ (0 ≤ idx) := by omega
    have hy : -((g.cells.length : ℤ)) ≤ idx := by omega
    have hz : 0 ≤ idx + g.size.width * g.size.height := by omega
    rw [if_neg hx, if_pos hy, if_pos hz, hlen]
  · rw [Grid.setLinear, Option.map_eq_none', pySet_none_iff, hlen]
  · intro h1 h2
    have hne : ¬ (g.setLinear idx v = none) := by
      rw [Grid.setLinear, Option.map_eq_none', pySet_none_iff]
      omega
    exact Option.ne_none_iff_exists'.mp hne
  · intro h1 h2
    rw [Grid.setLinear, Grid.setLinear]
    unfold pySet
    rw [if_neg (by omega : ¬ (0 ≤ idx ∧ idx < (g.cells.length : ℤ))),
      if_pos (show -((g.cells.length : ℤ)) ≤ idx ∧ idx < 0 by omega),
      if_pos (show 0 ≤ idx + g.size.width * g.size.height ∧
        idx + g.size.width * g.size.height < (g.cells.length : ℤ) by omega),
      hlen]

/-- Witness for C2's amended statement at the 2×2 grid with cells
`[10,11,12,13]`, index `-1` and written value `99`. -/
theorem C2_amended_bounds_witness :
    ((⟨⟨2, 2⟩, [10, 11, 12, 13]⟩ : Grid ℕ).getLinear (-1) = none ↔
      ((-1 : ℤ) < -((2 : ℤ) * 2) ∨ (2 : ℤ) * 2 ≤ -1)) ∧
    (0 ≤ (-1 : ℤ) → (-1 : ℤ) < (2 : ℤ) * 2 →
      ∃ c, (⟨⟨2, 2⟩, [10, 11, 12, 13]⟩ : Grid ℕ).getLinear (-1) = some c) ∧
    ((-1 : ℤ) < 0 → -((2 : ℤ) * 2) ≤ -1 →
      (⟨⟨2, 2⟩, [10, 11, 12, 13]⟩ : Grid ℕ).getLinear (-1) =
        (⟨⟨2, 2⟩, [10, 11, 12, 13]⟩ : Grid ℕ).getLinear (-1 + 2 * 2)) ∧
    ((⟨⟨2, 2⟩, [10, 11, 12, 13]⟩ : Grid ℕ).setLinear (-1) 99 = none ↔
      ((-1 : ℤ) < -((2 : ℤ) * 2) ∨ (2 : ℤ) * 2 ≤ -1)) ∧
    (0 ≤ (-1 : ℤ) → (-1 : ℤ) < (2 : ℤ) * 2 →
      ∃ g2, (⟨⟨2, 2⟩, [10, 11, 12, 13]⟩ : Grid ℕ).setLinear (-1) 99 = some g2) ∧
    ((-1 : ℤ) < 0 → -((2 : ℤ) * 2) ≤ -1 →
      (⟨⟨2, 2⟩, [10, 11, 12, 13]⟩ : Grid ℕ).setLinear (-1) 99 =
        (⟨⟨2, 2⟩, [10, 11, 12, 13]⟩ : Grid ℕ).setLinear (-1 + 2 * 2) 99) := by
  exact C2_amended_bounds (⟨⟨2, 2⟩, [10, 11, 12, 13]⟩ : Grid ℕ) (-1) 99
    (by decide)

lemma dictGet_emOn_none (m : List (ℤ × List ℕ)) (t : ℤ) (l : ℕ)
    (h : dictGet m t = none) : dictGet (emOn m t l) t = some [l] := by
  rw [emOn, h]
  induction m with
  | nil => simp [appendListener, dictGet]
  | cons p rest ih =>
    obtain ⟨k, v⟩ := p
    by_cases hk : k = t
    · rw [dictGet, if_pos hk] at h
      exact absurd h (by simp)
    · rw [dictGet, if_neg hk] at h
      simpa [appendListener, dictGet, hk] using ih h

lemma dictGet_emOn_some (m : List (ℤ × List ℕ)) (t : ℤ) (l : ℕ) (v : List ℕ)
    (h : dictGet m t = some v) :
    dictGet (emOn m t l) t = some (v ++ [l]) := by
  rw [emOn, h]
  induction m with
  | nil => simp [dictGet] at h
  | cons p rest ih =>
    obtain ⟨k, w⟩ := p
    by_cases hk : k = t
    · rw [dictGet, if_pos hk] at h
      obtain rfl : w = v := by simpa using h
      simp [appendListener, dictGet, hk]
    · rw [dictGet, if_neg hk] at h
      simpa [appendListener, dictGet, hk] using ih h

/-- C7: starting from a manager with no listener for type `t`,
registering `l1` then `l2` for `t` makes `trigger(t, ctx)` invoke
`l1` then `l2`, in registration order, exactly once each, passing
`ctx` to both; and `trigger` on a type `u` with no registered
listeners performs no invocation and raises no error. -/
theorem C7_trigger_order {γ : Type} (m : List (ℤ × List ℕ)) (t u : ℤ)
    (l1 l2 : ℕ) (ctx : γ)
    (ht : dictGet m t = none) (hu : dictGet m u = none) :
    emTrigger (emOn (emOn m t l1) t l2) t ctx = [(l1, ctx), (l2, ctx)] ∧
    emTrigger m u ctx = [] := by
  constructor
  · have h1 := dictGet_emOn_none m t l1 ht
    have h2 := dictGet_emOn_some (emOn m t l1) t l2 [l1] h1
    rw [emTrigger, h2]
    simp
  · rw [emTrigger, hu]

/-- Witness for C7 on the empty manager with `t = 0`, `u = 1`,
listeners `l1 = 10`, `l2 = 11` and context `7`. -/
theorem C7_trigger_order_witness :
    emTrigger (emOn (emOn [] 0 10) 0 11) 0 (7 : ℕ) = [(10, 7), (11, 7)] ∧
    emTrigger ([] : List (ℤ × List ℕ)) 1 (7 : ℕ) = [] :=
  C7_trigger_order [] 0 1 10 11 7 rfl rfl

lemma mem_intRangeAux (m : ℤ) :
    ∀ (n : ℕ) (a : ℤ), m ∈ intRangeAux n a ↔ a ≤ m ∧ m < a + n := by
  intro n
  induction n with
  | zero => intro a; simp [intRangeAux]
  | succ k ih =>
    intro a
    rw [intRangeAux]
    simp only [List.mem_cons, ih (a + 1)]
    omega

lemma mem_intRange (m a b : ℤ) : m ∈ intRange a b ↔ a ≤ m ∧ m < b := by
  rw [intRange, mem_intRangeAux]
  omega

lemma intRangeAux_length : ∀ (n : ℕ) (a : ℤ), (intRangeAux n a).length = n := by
  intro n
  induction n with
  | zero => intro a; rfl
  | succ k ih => intro a; simp [intRangeAux, ih]

lemma mem_foldl_csAdd_inner (row : ℤ) (x : ℤ × ℤ) :
    ∀ (cols : List ℤ) (s0 : CoordinateSet),
      x ∈ cols.foldl (fun s2 col => csAdd s2 (col, row)) s0 ↔
        x ∈ s0 ∨ ∃ c ∈ cols, x = (c, row) := by
  intro cols
  induction cols with
  | nil => intro s0; simp
  | cons c rest ih =>
    intro s0
    rw [List.foldl_cons, ih]
    simp only [csAdd, Finset.mem_insert, List.mem_cons]
    constructor
    · rintro (⟨h | h⟩ | ⟨d, hd, he⟩)
      · exact Or.inr ⟨c, Or.inl rfl, h⟩
      · exact Or.inl h
      · exact Or.inr ⟨d, Or.inr hd, he⟩
    · rintro (h | ⟨d, (rfl | hd), he⟩)
      · exact Or.inl (Or.inr h)
      · exact Or.inl (Or.inl he)
      · exact Or.inr ⟨d, hd, he⟩

lemma mem_foldl_csAdd_outer (cols : List ℤ) (x : ℤ × ℤ) :
    ∀ (rows : List ℤ) (s0 : CoordinateSet),
      x ∈ rows.foldl
          (fun s row => cols.foldl (fun s2 col => csAdd s2 (col, row)) s) s0 ↔
        x ∈ s0 ∨ ∃ r ∈ rows, ∃ c ∈ cols, x = (c, r) := by
  intro rows
  induction rows with
  | nil => intro s0; simp
  | cons r rest ih =>
    intro s0
    rw [List.foldl_cons, ih, mem_foldl_csAdd_inner]
    simp only [List.mem_cons]
    constructor
    · rintro (⟨h | ⟨c, hc, he⟩⟩ | ⟨d, hd, c, hc, he⟩)
      · exact Or.inl h
      · exact Or.inr ⟨r, Or.inl rfl, c, hc, he⟩
      · exact Or.inr ⟨d, Or.inr hd, c, hc, he⟩
    · rintro (h | ⟨d, (rfl | hd), c, hc, he⟩)
      · exact Or.inl (Or.inl h)
      · exact Or.inl (Or.inr ⟨c, hc, he⟩)
      · exact Or.inr ⟨d, hd, c, hc, he⟩

/-- C8: for all integers `x, y, w, h` and every coordinate
`(cx, cy)`, `CoordinateSet.from_rect(x, y, w, h).has((cx, cy))` holds
exactly when `x ≤ cx < x + w` and `y ≤ cy < y + h`. -/
theorem C8_from_rect_membership (x y w h cx cy : ℤ) :
    csHas (fromRect ⟨x, y, w, h⟩) (cx, cy) = true ↔
      (x ≤ cx ∧ cx < x + w ∧ y ≤ cy ∧ cy < y + h) := by
  rw [csHas, decide_eq_true_iff, fromRect, mem_foldl_csAdd_outer]
  simp only [Finset.not_mem_empty, false_or]
  constructor
  · rintro ⟨r, hr, c, hc, he⟩
    rw [mem_intRange] at hr hc
    have he2 : cx = c ∧ cy = r := by
      simpa [Prod.ext_iff] using he
    omega
  · rintro ⟨h1, h2, h3, h4⟩
    exact ⟨cy, (mem_intRange _ _ _).mpr ⟨h3, h4⟩,
      cx, (mem_intRange _ _ _).mpr ⟨h1, h2⟩, rfl⟩

/-- C9: `CoordinateSet.remove` on an absent coordinate fails with a
`KeyError` (the NotFound condition), never a silent no-op; on a
present coordinate it succeeds, and a subsequent `has` of that
coordinate returns false. -/
theorem C9_remove_semantics (s : CoordinateSet) (c : ℤ × ℤ) :
    (csHas s c = false → csRemove s c = none) ∧
    (csHas s c = true → ∃ s2, csRemove s c = some s2 ∧ csHas s2 c = false) := by
  constructor
  · intro h
    rw [csHas] at h
    rw [csRemove, if_neg]
    simpa using h
  · intro h
    rw [csHas, decide_eq_true_iff] at h
    refine ⟨s.erase c, by rw [csRemove, if_pos h], ?_⟩
    simp [csHas]

/-- Witness for C9: removing `(0,0)` from the empty set fails; removing
it from `{(0,0)}` succeeds and membership afterwards is false. -/
theorem C9_remove_semantics_witness :
    csRemove (∅ : CoordinateSet) (0, 0) = none ∧
    ∃ s2, csRemove ({(0, 0)} : CoordinateSet) (0, 0) = some s2 ∧
      csHas s2 (0, 0) = false :=
  ⟨(C9_remove_semantics ∅ (0, 0)).1 (by decide),
    (C9_remove_semantics {(0, 0)} (0, 0)).2 (by decide)⟩

lemma iterRun_empty_cols (rs re cs ce : ℤ) (hc : ce ≤ cs + 1) :
    ∀ (n : ℕ) (r : ℤ), (re - r).toNat = n →
      iterRun ⟨rs, re, cs, ce, r, cs⟩ =
        (intRange r re).map (fun row => (cs, row)) := by
  intro n
  induction n with
  | zero =>
    intro r hr
    have h1 : (⟨rs, re, cs, ce, r, cs⟩ : ItState).current_row ≥
        (⟨rs, re, cs, ce, r, cs⟩ : ItState).row_end := by
      show re ≤ r
      omega
    rw [iterRun, dif_pos h1, intRange, hr]
    rfl
  | succ k ih =>
    intro r hr
    have h1 : ¬ ((⟨rs, re, cs, ce, r, cs⟩ : ItState).current_row ≥
        (⟨rs, re, cs, ce, r, cs⟩ : ItState).row_end) := by
      show ¬ (re ≤ r)
      omega
    have h2 : (⟨rs, re, cs, ce, r, cs⟩ : ItState).current_col + 1 ≥
        (⟨rs, re, cs, ce, r, cs⟩ : ItState).col_end := by
      show ce ≤ cs + 1
      omega
    rw [iterRun, dif_neg h1, if_pos h2]
    have hrec : iterRun ⟨rs, re, cs, ce, r + 1, cs⟩ =
        (intRange (r + 1) re).map (fun row => (cs, row)) :=
      ih (r + 1) (by omega)
    have hcons : intRange r re = r :: intRange (r + 1) re := by
      rw [intRange, intRange, hr, show (re - (r + 1)).toNat = k by omega]
      rfl
    rw [hcons, List.map_cons]
    show (cs, r) :: iterRun (⟨rs, re, cs, ce, r + 1, cs⟩ : ItState) =
      (cs, r) :: (intRange (r + 1) re).map (fun row => (cs, row))
    rw [hrec]

/-- C10: a grid iterator with a non-empty row range and an empty
column range (`col_start ≥ col_end`) does not yield zero cells: it
yields exactly one cell per row of the row range, namely the cell at
column `col_start` of each row (its coordinate trace is
`[(col_start, r) | r ∈ [row_start, row_end)]`). -/
theorem C10_empty_col_range_one_per_row (rs re cs ce : ℤ)
    (hrow : rs < re) (hcol : ce ≤ cs) :
    iterRun (mkIterator (rs, re) (cs, ce)) =
      (intRange rs re).map (fun r => (cs, r)) ∧
    (iterRun (mkIterator (rs, re) (cs, ce))).length = (re - rs).toNat ∧
    iterRun (mkIterator (rs, re) (cs, ce)) ≠ [] := by
  have h0 : iterRun (mkIterator (rs, re) (cs, ce)) =
      (intRange rs re).map (fun r => (cs, r)) :=
    iterRun_empty_cols rs re cs ce (by omega) (re - rs).toNat rs rfl
  refine ⟨h0, ?_, ?_⟩
  · rw [h0, List.length_map, intRange, intRangeAux_length]
  · rw [h0, intRange, show (re - rs).toNat = (re - rs - 1).toNat + 1 by omega,
      intRangeAux]
    simp

/-- Witness for C10 with row range `[0, 2)` and column range `[3, 1)`:
two cells are yielded, one per row, both at column 3. -/
theorem C10_empty_col_range_one_per_row_witness :
    iterRun (mkIterator (0, 2) (3, 1)) = [(3, 0), (3, 1)] ∧
    (iterRun (mkIterator (0, 2) (3, 1))).length = 2 ∧
    iterRun (mkIterator (0, 2) (3, 1)) ≠ [] := by
  have h := C10_empty_col_range_one_per_row 0 2 3 1 (by norm_num) (by norm_num)
  obtain ⟨h1, h2, h3⟩ := h
  refine ⟨?_, ?_, h3⟩
  · rw [h1]
    rfl
  · rw [h2]
    rfl

/-- C1 is violated by the source: with two registered non-paused loops
`A` (id 0, whose callback removes `A` itself via `manager.remove`) and
`B` (id 1), both due to fire at `dt = 2`, one `LoopManager.update(2)`
call runs `A`'s callback, removes `A`, and then — because the `for`
loop iterates the live list by index — terminates without ever
updating `B`: the result keeps `B` in its untouched initial state and
records no invocation of `B`'s callback, although `B` alone would have
fired, as the second conjunct shows. -/
theorem C1_removal_skips_next_loop :
    managerUpdate 2
        [mkLoop 0 1000 1 (.removeTarget 0), mkLoop 1 1000 1 .plain] =
      ([mkLoop 1 1000 1 .plain], [(0, 0)]) ∧
    managerUpdate 2 [mkLoop 1 1000 1 .plain] =
      ([{ mkLoop 1 1000 1 .plain with elapsed_time := 2, current_count := 0 }],
        [(1, 0)]) := by
  constructor
  · norm_num [managerUpdate, managerGoF, loopUpdate, mkLoop, applyEffect,
      removeById]
  · norm_num [managerUpdate, managerGoF, loopUpdate, mkLoop, applyEffect,
      removeById]

lemma managerUpdate_nil (dt : ℚ) : managerUpdate dt [] = ([], []) := rfl

lemma managerRun_cons (dt : ℚ) (rest : List ℚ) (ls : List MLoop) :
    managerRun (dt :: rest) ls =
      ((managerRun rest (managerUpdate dt ls).1).1,
        (managerUpdate dt ls).2 ++ (managerRun rest (managerUpdate dt ls).1).2) :=
  rfl

lemma managerTrace_cons (dt : ℚ) (rest : List ℚ) (ls : List MLoop) :
    managerTrace (dt :: rest) ls =
      (managerUpdate dt ls).2 :: managerTrace rest (managerUpdate dt ls).1 :=
  rfl

lemma managerRun_nil_loops : ∀ dts : List ℚ, managerRun dts [] = ([], []) := by
  intro dts
  induction dts with
  | nil => rfl
  | cons dt rest ih =>
    rw [managerRun_cons, managerUpdate_nil, ih]
    rfl

lemma managerTrace_nil_loops :
    ∀ dts : List ℚ, managerTrace dts [] = List.replicate dts.length [] := by
  intro dts
  induction dts with
  | nil => rfl
  | cons dt rest ih =>
    rw [managerTrace_cons, managerUpdate_nil, ih, List.length_cons,
      List.replicate_succ]

lemma managerRun_events_join :
    ∀ (dts : List ℚ) (ls : List MLoop),
      (managerRun dts ls).2 = (managerTrace dts ls).flatten := by
  intro dts
  induction dts with
  | nil => intro ls; rfl
  | cons dt rest ih =>
    intro ls
    rw [managerTrace_cons, List.flatten_cons, managerRun_cons, ← ih]

lemma managerUpdate_singleton (dt : ℚ) (l : MLoop) (hp : l.paused = false) :
    managerUpdate dt [l] =
      match (loopUpdate l dt).2 with
      | none => ([(loopUpdate l dt).1], [])
      | some idx =>
        (applyEffect l.kind l.id l.count_per_period idx [(loopUpdate l dt).1],
          [(l.id, idx)]) := by
  rcases hr : (loopUpdate l dt).2 with _ | idx
  · simp [managerUpdate, managerGoF, hp, hr]
  · simp [managerUpdate, managerGoF, hp, hr]

lemma once_step (dt : ℚ) (n : ℕ) (fps : ℚ) (cpp c : ℤ) (e : ℚ)
    (hc : c + 1 < cpp) :
    managerUpdate dt [onceState n fps cpp c e] =
      if ((c : ℚ) + 1) * (1000 / fps) < e + dt then
        (if c + 1 = cpp - 1 then ([], [(n, c + 1)])
         else ([onceState n fps cpp (c + 1) (e + dt)], [(n, c + 1)]))
      else ([onceState n fps cpp c (e + dt)], []) := by
  have hp : (onceState n fps cpp c e).paused = false := rfl
  rw [managerUpdate_singleton dt _ hp]
  by_cases hf : ((c : ℚ) + 1) * (1000 / fps) < e + dt
  · have h2 : ¬ (cpp ≤ c + 1) := by omega
    have hu : loopUpdate (onceState n fps cpp c e) dt =
        (onceState n fps cpp (c + 1) (e + dt), some (c + 1)) := by
      simp [loopUpdate, onceState, mkLoop, hf, h2]
    rw [hu, if_pos hf]
    by_cases hl : c + 1 = cpp - 1
    · rw [if_pos hl]
      simp [applyEffect, onceState, mkLoop, hl, removeById]
    · rw [if_neg hl]
      simp [applyEffect, onceState, mkLoop, hl, removeById]
  · have hu : loopUpdate (onceState n fps cpp c e) dt =
        (onceState n fps cpp c (e + dt), none) := by
      simp [loopUpdate, onceState, mkLoop, hf]
    rw [hu, if_neg hf]

lemma intRange_empty (a b : ℤ) (h : b ≤ a) : intRange a b = [] := by
  rw [intRange, show (b - a).toNat = 0 by omega]
  rfl

lemma intRange_cons (a b : ℤ) (h : a < b) :
    intRange a b = a :: intRange (a + 1) b := by
  rw [intRange, intRange, show (b - a).toNat = (b - (a + 1)).toNat + 1 by omega]
  rfl

lemma onceRun_inv (n : ℕ) (fps : ℚ) (cpp : ℤ) :
    ∀ (dts : List ℚ) (c : ℤ) (e : ℚ), -1 ≤ c → c + 1 < cpp →
      ∃ k : ℤ, 0 ≤ k ∧ c + 1 + k ≤ cpp ∧
        (managerRun dts [onceState n fps cpp c e]).2 =
          (intRange (c + 1) (c + 1 + k)).map (fun j => (n, j)) ∧
        ((c + 1 + k = cpp ∧
            (managerRun dts [onceState n fps cpp c e]).1 = []) ∨
         (c + 1 + k < cpp ∧ ∃ e2,
            (managerRun dts [onceState n fps cpp c e]).1 =
              [onceState n fps cpp (c + k) e2])) := by
  intro dts
  induction dts with
  | nil =>
    intro c e hc1 hc2
    refine ⟨0, le_rfl, by omega, ?_, Or.inr ⟨by omega, e, ?_⟩⟩
    · rw [show c + 1 + (0 : ℤ) = c + 1 from add_zero _,
        intRange_empty _ _ le_rfl]
      rfl
    · rw [show c + (0 : ℤ) = c from add_zero _]
      rfl
  | cons dt rest ih =>
    intro c e hc1 hc2
    rw [managerRun_cons, once_step dt n fps cpp c e hc2]
    by_cases hf : ((c : ℚ) + 1) * (1000 / fps) < e + dt
    · rw [if_pos hf]
      by_cases hl : c + 1 = cpp - 1
      · rw [if_pos hl]
        refine ⟨1, by omega, by omega, ?_, Or.inl ⟨by omega, ?_⟩⟩
        · show [(n, c + 1)] ++ (managerRun rest []).2 =
            (intRange (c + 1) (c + 1 + 1)).map (fun j => (n, j))
          rw [managerRun_nil_loops,
            intRange_cons _ _ (by omega), intRange_empty _ _ (by omega)]
          rfl
        · show (managerRun rest []).1 = []
          rw [managerRun_nil_loops]
      · rw [if_neg hl]
        obtain ⟨k, hk0, hk1, hk2, hk3⟩ := ih (c + 1) (e + dt) (by omega) (by omega)
        refine ⟨k + 1, by omega, by omega, ?_, ?_⟩
        · show [(n, c + 1)] ++
              (managerRun rest [onceState n fps cpp (c + 1) (e + dt)]).2 =
            (intRange (c + 1) (c + 1 + (k + 1))).map (fun j => (n, j))
          rw [hk2, show c + 1 + (k + 1) = c + 1 + 1 + k by ring,
            intRange_cons (c + 1) (c + 1 + 1 + k) (by omega)]
          rfl
        · rcases hk3 with ⟨hk3a, hk3b⟩ | ⟨hk3a, e2, hk3b⟩
          · refine Or.inl ⟨by omega, ?_⟩
            show (managerRun rest [onceState n fps cpp (c + 1) (e + dt)]).1 = []
            exact hk3b
          · refine Or.inr ⟨by omega, e2, ?_⟩
            show (managerRun rest [onceState n fps cpp (c + 1) (e + dt)]).1 =
              [onceState n fps cpp (c + (k + 1)) e2]
            rw [hk3b, show c + (k + 1) = c + 1 + k by ring]
    · rw [if_neg hf]
      obtain ⟨k, hk0, hk1, hk2, hk3⟩ := ih c (e + dt) hc1 hc2
      refine ⟨k, hk0, hk1, ?_, ?_⟩
      · show [] ++ (managerRun rest [onceState n fps cpp c (e + dt)]).2 =
          (intRange (c + 1) (c + 1 + k)).map (fun j => (n, j))
        rw [List.nil_append, hk2]
      · rcases hk3 with ⟨hk3a, hk3b⟩ | ⟨hk3a, e2, hk3b⟩
        · exact Or.inl ⟨hk3a, hk3b⟩
        · exact Or.inr ⟨hk3a, e2, hk3b⟩

lemma once_replicate (n : ℕ) (fps : ℚ) (cpp : ℤ) (hfps : 0 < fps) :
    ∀ (m : ℕ) (c : ℤ), -1 ≤ c → c + 1 + m = cpp → 1 ≤ m →
      managerRun (List.replicate m (1000 / fps))
          [onceState n fps cpp c (((c : ℚ) + 1) * (1000 / fps))] =
        ([], (intRange (c + 1) cpp).map (fun j => (n, j))) := by
  intro m
  induction m with
  | zero => intro c _ _ h; omega
  | succ m2 ih =>
    intro c hc1 hc2 _
    have hcpp : c + 1 < cpp := by omega
    rw [List.replicate_succ, managerRun_cons,
      once_step (1000 / fps) n fps cpp c (((c : ℚ) + 1) * (1000 / fps)) hcpp]
    have hect : (0 : ℚ) < 1000 / fps := by positivity
    have hfire : ((c : ℚ) + 1) * (1000 / fps) <
        ((c : ℚ) + 1) * (1000 / fps) + 1000 / fps := by linarith
    rw [if_pos hfire]
    by_cases hl : c + 1 = cpp - 1
    · have hm2 : m2 = 0 := by omega
      subst hm2
      rw [if_pos hl, managerRun_nil_loops,
        show cpp = c + 2 by omega, intRange_cons (c + 1) (c + 2) (by omega),
        intRange_empty (c + 1 + 1) (c + 2) (by omega)]
      rfl
    · rw [if_neg hl,
        show ((c : ℚ) + 1) * (1000 / fps) + 1000 / fps =
          (((c + 1 : ℤ) : ℚ) + 1) * (1000 / fps) from by push_cast; ring,
        ih (c + 1) (by omega) (by omega) (by omega),
        intRange_cons (c + 1) cpp (by omega)]
      rfl

/-- C5: a loop registered with `LoopManager.once(fps, cpp, cb)` (for a
count `cpp ≥ 1`) invokes its callback, over any sequence of updates,
with the index prefix `0, 1, …, k-1` for some `k ≤ cpp`; it is removed
from the manager exactly when the invocation with index `cpp - 1` has
happened (`k = cpp`), and stays registered otherwise.  Moreover (with
`fps > 0`) the count `cpp` is reached: running `cpp` updates of
`each_count_time` milliseconds each makes the callback fire exactly
`cpp` times, with indices `0 … cpp-1`, after which the loop is no
longer in the manager's collection. -/
theorem C5_once_fires_exactly_cpp (n : ℕ) (fps : ℚ) (cpp : ℤ)
    (hcpp : 1 ≤ cpp) :
    (∀ dts : List ℚ, ∃ k : ℤ, 0 ≤ k ∧ k ≤ cpp ∧
      (managerRun dts [mkLoop n fps cpp .onceK]).2 =
        (intRange 0 k).map (fun j => (n, j)) ∧
      ((k = cpp ∧ (managerRun dts [mkLoop n fps cpp .onceK]).1 = []) ∨
       (k < cpp ∧ (managerRun dts [mkLoop n fps cpp .onceK]).1 ≠ []))) ∧
    (0 < fps →
      managerRun (List.replicate cpp.toNat (1000 / fps))
          [mkLoop n fps cpp .onceK] =
        ([], (intRange 0 cpp).map (fun j => (n, j)))) := by
  have hML : mkLoop n fps cpp .onceK = onceState n fps cpp (-1) 0 := rfl
  constructor
  · intro dts
    obtain ⟨k, hk0, hk1, hk2, hk3⟩ :=
      onceRun_inv n fps cpp dts (-1) 0 (by omega) (by omega)
    rw [show (-1 : ℤ) + 1 = 0 by ring, zero_add] at hk1 hk2 hk3
    refine ⟨k, hk0, hk1, ?_, ?_⟩
    · rw [hML, hk2]
    · rcases hk3 with ⟨hk3a, hk3b⟩ | ⟨hk3a, e2, hk3b⟩
      · exact Or.inl ⟨hk3a, by rw [hML]; exact hk3b⟩
      · refine Or.inr ⟨hk3a, ?_⟩
        rw [hML, hk3b]
        simp
  · intro hfps
    have h := once_replicate n fps cpp hfps cpp.toNat (-1) (by omega)
      (by omega) (by omega)
    rw [show (((-1 : ℤ) : ℚ) + 1) * (1000 / fps) = 0 from by push_cast; ring,
      show (-1 : ℤ) + 1 = 0 by ring] at h
    rw [hML]
    exact h

/-- Witness for C5 with `fps = 1000`, `cpp = 2`: the universal part at
the update sequence `[1, 1]`, and the sufficiency part. -/
theorem C5_once_fires_exactly_cpp_witness :
    (∃ k : ℤ, 0 ≤ k ∧ k ≤ 2 ∧
      (managerRun [1, 1] [mkLoop 0 1000 2 .onceK]).2 =
        (intRange 0 k).map (fun j => (0, j)) ∧
      ((k = 2 ∧ (managerRun [1, 1] [mkLoop 0 1000 2 .onceK]).1 = []) ∨
       (k < 2 ∧ (managerRun [1, 1] [mkLoop 0 1000 2 .onceK]).1 ≠ []))) ∧
    managerRun (List.replicate (2 : ℤ).toNat ((1000 : ℚ) / 1000))
        [mkLoop 0 1000 2 .onceK] =
      ([], (intRange 0 2).map (fun j => (0, j))) :=
  ⟨(C5_once_fires_exactly_cpp 0 1000 2 (by norm_num)).1 [1, 1],
    (C5_once_fires_exactly_cpp 0 1000 2 (by norm_num)).2 (by norm_num)⟩

lemma managerTrace_length :
    ∀ (dts : List ℚ) (ls : List MLoop),
      (managerTrace dts ls).length = dts.length := by
  intro dts
  induction dts with
  | nil => intro ls; rfl
  | cons dt rest ih =>
    intro ls
    rw [managerTrace_cons, List.length_cons, List.length_cons, ih]

lemma ect_delay (d : ℚ) (hd : d ≠ 0) : (1000 : ℚ) / (1000 / d) = d := by
  rw [div_div_eq_mul_div, mul_comm, mul_div_assoc,
    div_self (show (1000 : ℚ) ≠ 0 by norm_num), mul_one]

lemma delay_first_step (n : ℕ) (d dt : ℚ) (hdt : 0 < dt) :
    managerUpdate dt [delayLoop n d] =
      ([onceState n (1000 / d) 2 0 dt], [(n, 0)]) := by
  have h1 : delayLoop n d = onceState n (1000 / d) 2 (-1) 0 := rfl
  rw [h1, once_step dt n (1000 / d) 2 (-1) 0 (by omega),
    if_pos (show (((-1 : ℤ) : ℚ) + 1) * (1000 / (1000 / d)) < 0 + dt from by
      push_cast
      simpa using hdt),
    if_neg (show ¬ ((-1 : ℤ) + 1 = 2 - 1) by omega)]
  norm_num

lemma delay_step0 (n : ℕ) (d dt e : ℚ) (hd : d ≠ 0) :
    managerUpdate dt [onceState n (1000 / d) 2 0 e] =
      if d < e + dt then ([], [(n, 1)])
      else ([onceState n (1000 / d) 2 0 (e + dt)], []) := by
  rw [once_step dt n (1000 / d) 2 0 e (by omega),
    show (((0 : ℤ) : ℚ) + 1) * (1000 / (1000 / d)) = d from by
      rw [ect_delay d hd]; push_cast; ring]
  by_cases hf : d < e + dt
  · rw [if_pos hf, if_pos hf, if_pos (show (0 : ℤ) + 1 = 2 - 1 by omega)]
    norm_num
  · rw [if_neg hf, if_neg hf]

lemma delay_phase_trace (n : ℕ) (d : ℚ) (hd : d ≠ 0) :
    ∀ (dts : List ℚ) (e : ℚ) (j : ℕ), j < dts.length →
      ((n, 1) ∈ (managerTrace dts [onceState n (1000 / d) 2 0 e]).getD j [] ↔
        (d < e + (dts.take (j + 1)).sum ∧
          ∀ j2, j2 < j → e + (dts.take (j2 + 1)).sum ≤ d)) := by
  intro dts
  induction dts with
  | nil => intro e j hj; simp at hj
  | cons dt rest ih =>
    intro e j hj
    rw [managerTrace_cons, delay_step0 n d dt e hd]
    by_cases hf : d < e + dt
    · rw [if_pos hf]
      change (n, 1) ∈ ([(n, 1)] :: managerTrace rest []).getD j [] ↔ _
      rw [managerTrace_nil_loops]
      cases j with
      | zero =>
        simp only [List.getD_cons_zero]
        constructor
        · intro _
          refine ⟨by simpa using hf, ?_⟩
          intro j2 h2
          omega
        · intro _
          simp
      | succ j2 =>
        simp only [List.getD_cons_succ]
        constructor
        · intro hmem
          exfalso
          rcases Nat.lt_or_ge j2 rest.length with hlt | hge
          · rw [List.getD_eq_getElem _ _ (by simpa using hlt)] at hmem
            simp at hmem
          · rw [List.getD_eq_default _ _ (by simpa using hge)] at hmem
            simp at hmem
        · rintro ⟨h1, h2⟩
          have h3 := h2 0 (by omega)
          rw [List.take_succ_cons, List.take_zero] at h3
          simp only [List.sum_cons, List.sum_nil, add_zero] at h3
          linarith
    · rw [if_neg hf]
      change (n, 1) ∈
          ([] :: managerTrace rest [onceState n (1000 / d) 2 0 (e + dt)]).getD
            j [] ↔ _
      cases j with
      | zero =>
        simp only [List.getD_cons_zero]
        constructor
        · intro hmem
          simp at hmem
        · rintro ⟨h1, h2⟩
          rw [List.take_succ_cons, List.take_zero] at h1
          simp only [List.sum_cons, List.sum_nil, add_zero] at h1
          exact absurd h1 hf
      | succ j2 =>
        simp only [List.getD_cons_succ]
        rw [ih (e + dt) j2 (by simpa using hj)]
        constructor
        · rintro ⟨h1, h2⟩
          refine ⟨?_, ?_⟩
          · rw [List.take_succ_cons, List.sum_cons]
            linarith
          · intro j3 h3
            cases j3 with
            | zero =>
              rw [List.take_succ_cons, List.take_zero]
              simp only [List.sum_cons, List.sum_nil, add_zero]
              linarith [not_lt.mp hf]
            | succ j4 =>
              rw [List.take_succ_cons, List.sum_cons]
              have := h2 j4 (by omega)
              linarith
        · rintro ⟨h1, h2⟩
          refine ⟨?_, ?_⟩
          · rw [List.take_succ_cons, List.sum_cons] at h1
            linarith
          · intro j3 h3
            have := h2 (j3 + 1) (by omega)
            rw [List.take_succ_cons, List.sum_cons] at this
            linarith

/-- C6: for a loop registered via `LoopManager.delay(d, cb)` with
`d > 0`, run over any sequence of positive delta times: the user
callback (whose invocations are the `(n, 1)` events of the underlying
2-count once-loop) fires during update `j+1` exactly when `j ≥ 1`, the
cumulative delta time through update `j+1` exceeds `d` milliseconds,
and no earlier update from the second onward had already crossed `d`
(so it fires at the update on which cumulative time first crosses
`d`, except that it can never fire before the second update); it fires
at most once in total; and once it has fired the loop has disappeared
from the manager, so it can never fire again. -/
theorem C6_delay_fires_once_at_crossing (n : ℕ) (d : ℚ) (hd : 0 < d)
    (dts : List ℚ) (hpos : ∀ x ∈ dts, 0 < x) :
    (∀ j, j < dts.length →
      ((n, 1) ∈ (managerTrace dts [delayLoop n d]).getD j [] ↔
        (1 ≤ j ∧ d < (dts.take (j + 1)).sum ∧
          ∀ j2, 1 ≤ j2 → j2 < j → (dts.take (j2 + 1)).sum ≤ d))) ∧
    List.count (n, 1) (managerRun dts [delayLoop n d]).2 ≤ 1 ∧
    ((n, 1) ∈ (managerRun dts [delayLoop n d]).2 →
      (managerRun dts [delayLoop n d]).1 = []) := by
  have hML : delayLoop n d = onceState n (1000 / d) 2 (-1) 0 := rfl
  refine ⟨?_, ?_, ?_⟩
  · intro j hj
    cases dts with
    | nil => simp at hj
    | cons dt rest =>
      have hdt : 0 < dt := hpos dt (by simp)
      rw [managerTrace_cons, delay_first_step n d dt hdt]
      change (n, 1) ∈
          ([(n, 0)] :: managerTrace rest [onceState n (1000 / d) 2 0 dt]).getD
            j [] ↔ _
      cases j with
      | zero =>
        simp only [List.getD_cons_zero]
        constructor
        · intro hmem
          simp at hmem
        · rintro ⟨h1, -⟩
          omega
      | succ j2 =>
        simp only [List.getD_cons_succ]
        rw [delay_phase_trace n d (ne_of_gt hd) rest dt j2 (by simpa using hj)]
        constructor
        · rintro ⟨h1, h2⟩
          refine ⟨by omega, ?_, ?_⟩
          · rw [List.take_succ_cons, List.sum_cons]
            linarith
          · intro j3 hj3a hj3b
            cases j3 with
            | zero => omega
            | succ j4 =>
              rw [List.take_succ_cons, List.sum_cons]
              have := h2 j4 (by omega)
              linarith
        · rintro ⟨h0, h1, h2⟩
          refine ⟨?_, ?_⟩
          · rw [List.take_succ_cons, List.sum_cons] at h1
            linarith
          · intro j3 hj3
            have := h2 (j3 + 1) (by omega) (by omega)
            rw [List.take_succ_cons, List.sum_cons] at this
            linarith
  · obtain ⟨k, hk0, hk1, hk2, hk3⟩ :=
      onceRun_inv n (1000 / d) 2 dts (-1) 0 (by omega) (by omega)
    rw [show (-1 : ℤ) + 1 = 0 by ring, zero_add] at hk1 hk2
    rw [hML, hk2]
    interval_cases k
    · rw [intRange_empty 0 0 le_rfl]
      simp
    · rw [intRange_cons 0 1 (by omega), intRange_empty (0 + 1) 1 (by omega)]
      simp [List.count_cons]
    · rw [intRange_cons 0 2 (by omega), intRange_cons (0 + 1) 2 (by omega),
        intRange_empty (0 + 1 + 1) 2 (by omega)]
      simp [List.count_cons]
  · intro hmem
    obtain ⟨k, hk0, hk1, hk2, hk3⟩ :=
      onceRun_inv n (1000 / d) 2 dts (-1) 0 (by omega) (by omega)
    rw [show (-1 : ℤ) + 1 = 0 by ring, zero_add] at hk1 hk2 hk3
    rcases hk3 with ⟨-, hfin⟩ | ⟨hlt, e2, hfin⟩
    · rw [hML]
      exact hfin
    · exfalso
      rw [hML, hk2] at hmem
      simp only [List.mem_map] at hmem
      obtain ⟨j, hjmem, hje⟩ := hmem
      rw [mem_intRange] at hjmem
      obtain ⟨-, rfl⟩ : n = n ∧ j = 1 := by simpa using hje
      omega

/-- Witness for C6 with `delay(100, cb)` and updates `[60, 60, 60]`:
the callback event occurs in the second update (cumulative 120 ms,
first crossing of 100 ms), the total count of callback invocations is
at most one, and the loop is gone at the end. -/
theorem C6_delay_fires_once_at_crossing_witness :
    (0, 1) ∈ (managerTrace [60, 60, 60] [delayLoop 0 100]).getD 1 [] ∧
    List.count (0, 1) (managerRun [60, 60, 60] [delayLoop 0 100]).2 ≤ 1 ∧
    (managerRun [60, 60, 60] [delayLoop 0 100]).1 = [] := by
  have h := C6_delay_fires_once_at_crossing 0 100 (by norm_num) [60, 60, 60]
    (by
      intro x hx
      simp only [List.mem_cons, List.not_mem_nil, or_false] at hx
      rcases hx with rfl | rfl | rfl <;> norm_num)
  have hmemtr : (0, 1) ∈ (managerTrace [60, 60, 60] [delayLoop 0 100]).getD 1 [] := by
    rw [h.1 1 (by norm_num)]
    refine ⟨le_rfl, ?_, ?_⟩
    · rw [show (([60, 60, 60] : List ℚ).take 2) = [60, 60] from rfl]
      norm_num
    · intro j2 h1 h2
      omega
  refine ⟨hmemtr, h.2.1, h.2.2 ?_⟩
  rw [managerRun_events_join]
  rw [List.mem_flatten]
  refine ⟨(managerTrace [60, 60, 60] [delayLoop 0 100]).getD 1 [], ?_, hmemtr⟩
  rw [List.getD_eq_getElem _ _ (by rw [managerTrace_length]; norm_num)]
  exact List.getElem_mem _

end Capstone
